import Mathlib

/-!
Verification development for the `finarc` crate (src/src/lib.rs).

The crate provides `FinArc<T, F>`: a handle that owns a private copy of a
value `T` and shares one `Arc<F>` finalizer slot with every handle cloned
from the same origin (a "lineage").  `Clone` copies the data and bumps the
`Arc`'s strong count; `Drop` takes the slot and runs the finalizer exactly
when `Arc::try_unwrap` succeeds, i.e. when the dropping handle held the sole
remaining reference; `FinArc::try_unwrap` performs the same last-reference
check but hands the raw value back instead of running the finalizer.

We embed the lineage as an explicit state machine: the set of live handles
(each with its private `data` copy and a flag recording whether its
`inner: Option<Arc<F>>` field is `Some`), the `Arc`'s strong count, whether
the finalizer is still inside the slot, the log of values the finalizer has
been invoked on, and the value returned by a successful `try_unwrap`.
Each public operation of the crate becomes a function on this state,
translated line by line from src/src/lib.rs; `Reachable` closes the initial
state of `FinArc::new` under those operations.

The delegating trait implementations (`PartialEq`, `PartialOrd`, `Ord`,
`Display`, `Debug`, lines 139-316) are modelled separately on `FinArcV`,
a direct image of the struct itself, since they act on individual handles
and never touch the shared slot.
-/

/-- One live `FinArc<T, F>` handle of a lineage (struct at lines 29-39 of
src/src/lib.rs).  `id` identifies the handle instance, `value` is its
private `data: T` field, and `inner` records whether its
`inner: Option<Arc<F>>` field is `Some` (it is `None` only transiently
inside `drop`/`try_unwrap`, never in a live handle). -/
structure Handle (T : Type) where
  id : Nat
  value : T
  inner : Bool
deriving DecidableEq

/-- The state of one lineage: every live handle, the shared `Arc<F>` slot's
strong count, whether the finalizer is still inside the slot (`pending`),
the list of values the finalizer has been invoked on (`runs`), and the value
extracted by a successful `try_unwrap`, if any (`unwrapped`). -/
structure St (T : Type) where
  live : List (Handle T)
  strong : Nat
  pending : Bool
  runs : List T
  unwrapped : Option T
  nextId : Nat
deriving DecidableEq

/-- Look up a live handle by id (the handle a caller is operating on). -/
def findHandle {T : Type} (s : St T) (i : Nat) : Option (Handle T) :=
  s.live.find? (fun h => h.id == i)

/-- The value currently observable through a handle's `Deref`
(src/src/lib.rs lines 96-98: `&self.data`). -/
def valueOf {T : Type} (s : St T) (i : Nat) : Option T :=
  (findHandle s i).map Handle.value

namespace FinArc

/-- `FinArc::new` (src/src/lib.rs lines 45-50): allocate a fresh
`Arc` holding the finalizer (strong count 1) and wrap the data.  A new
lineage starts with a single live handle. -/
def new {T : Type} (v : T) : St T :=
  { live := [⟨0, v, true⟩]
    strong := 1
    pending := true
    runs := []
    unwrapped := none
    nextId := 1 }

/-- `Clone for FinArc` (src/src/lib.rs lines 111-122): the new handle gets
`inner: self.inner.clone()` — cloning the `Option<Arc<F>>` bumps the strong
count exactly when it is `Some` — and `data: self.data.clone()`, an
independent copy of the source handle's value.  `none` when no live handle
has id `i` (a caller cannot clone a handle it no longer owns). -/
def cloneOp {T : Type} (s : St T) (i : Nat) : Option (St T) :=
  match findHandle s i with
  | none => none
  | some h =>
    some { s with
      live := s.live ++ [⟨s.nextId, h.value, h.inner⟩]
      strong := if h.inner then s.strong + 1 else s.strong
      nextId := s.nextId + 1 }

/-- `DerefMut for FinArc` followed by an assignment (src/src/lib.rs lines
106-108: `&mut self.data`): overwrite the private value of handle `i` with
`w`.  Only that handle's own `data` field changes. -/
def writeOp {T : Type} (s : St T) (i : Nat) (w : T) : Option (St T) :=
  match findHandle s i with
  | none => none
  | some _ =>
    some { s with
      live := s.live.map (fun h => if h.id == i then { h with value := w } else h) }

/-- `Drop for FinArc` (src/src/lib.rs lines 129-135):
`self.inner.take().expect("Finalizer is gone")` — if the handle's slot
reference is absent the program panics, modelled by the `none` result on the
`h.inner = false` branch.  Otherwise `Arc::try_unwrap` succeeds exactly when
this handle held the sole remaining reference (strong count 1); then the
finalizer is moved out and invoked on `&mut self.data`, recorded by
appending that handle's current value to `runs`.  If other references
remain, the `Arc` is simply released (strong count decremented) and the
finalizer stays in the slot untouched. -/
def dropOp {T : Type} (s : St T) (i : Nat) : Option (St T) :=
  match findHandle s i with
  | none => none
  | some h =>
    if h.inner then
      if s.strong == 1 then
        some { s with
          live := s.live.eraseP (fun h => h.id == i)
          strong := 0
          pending := false
          runs := s.runs ++ [h.value] }
      else
        some { s with
          live := s.live.eraseP (fun h => h.id == i)
          strong := s.strong - 1 }
    else none

/-- Result of `FinArc::try_unwrap`: `Ok(data)` carrying the value moved out
of the handle, or `Err(this)` carrying the reconstructed handle back; in
both cases paired with the lineage state afterwards. -/
inductive TUResult (T : Type) where
  | ok (v : T) (s' : St T)
  | err (s' : St T)
deriving DecidableEq

/-- `FinArc::try_unwrap` (src/src/lib.rs lines 72-86): take the slot
reference (`expect("Finalizer is gone")`, the `none` result on the
`h.inner = false` branch).  If `Arc::try_unwrap` succeeds (strong count 1)
the finalizer is dropped silently, the data is moved out by `ptr::read`,
and `mem::forget(this)` prevents the destructor from running, so the handle
disappears without any entry added to `runs`.  On failure the `Arc` is put
back (`this.inner = Some(arc)`) and the untouched handle is returned: the
state is exactly the input state. -/
def tryUnwrapOp {T : Type} (s : St T) (i : Nat) : Option (TUResult T) :=
  match findHandle s i with
  | none => none
  | some h =>
    if h.inner then
      if s.strong == 1 then
        some (.ok h.value
          { s with
            live := s.live.eraseP (fun h => h.id == i)
            strong := 0
            pending := false
            unwrapped := some h.value })
      else
        some (.err s)
    else none

end FinArc

/-- The lineage states reachable through the crate's public API: one
`FinArc::new`, then any sequence of `clone`, mutation through `DerefMut`,
`drop`, and `try_unwrap` calls on handles the caller still owns. -/
inductive Reachable {T : Type} : St T → Prop where
  | init (v : T) : Reachable (FinArc.new v)
  | clone {s s' : St T} {i : Nat} :
      Reachable s → FinArc.cloneOp s i = some s' → Reachable s'
  | write {s s' : St T} {i : Nat} {w : T} :
      Reachable s → FinArc.writeOp s i w = some s' → Reachable s'
  | drop {s s' : St T} {i : Nat} :
      Reachable s → FinArc.dropOp s i = some s' → Reachable s'
  | unwrapOk {s s' : St T} {i : Nat} {v : T} :
      Reachable s → FinArc.tryUnwrapOp s i = some (.ok v s') → Reachable s'
  | unwrapErr {s s' : St T} {i : Nat} :
      Reachable s → FinArc.tryUnwrapOp s i = some (.err s') → Reachable s'

/-- Direct image of the `FinArc<T, F>` struct itself (src/src/lib.rs lines
29-39) for the delegating trait implementations: `inner` models the
`Option<Arc<F>>` field (the `Arc` indirection carries no data relevant to
comparison or formatting), `data` the private value. -/
structure FinArcV (T : Type) (F : Type) where
  inner : Option F
  data : T

namespace FinArcV

/-- `Deref for FinArc` (src/src/lib.rs lines 96-98): `&self.data`. -/
def deref {T F : Type} (a : FinArcV T F) : T :=
  a.data

/-- `Clone for FinArc` at the struct level (src/src/lib.rs lines 116-121):
`inner: self.inner.clone(), data: self.data.clone()`. -/
def clone {T F : Type} (a : FinArcV T F) : FinArcV T F :=
  { inner := a.inner, data := a.data }

/-- `PartialEq<FinArc<T, F1>> for FinArc<T, F>`, method `eq`
(src/src/lib.rs line 162): `(**self).eq(&**other)` — both handles are
dereferenced and the values compared; the two finalizer types `F` and `F1`
may differ. -/
def eq {T F F1 : Type} [BEq T] (a : FinArcV T F) (b : FinArcV T F1) : Bool :=
  a.deref == b.deref

/-- Method `ne` of the same impl (src/src/lib.rs line 183):
`(**self).ne(&**other)`. -/
def ne {T F F1 : Type} [BEq T] (a : FinArcV T F) (b : FinArcV T F1) : Bool :=
  !(a.deref == b.deref)

/-- `PartialOrd<FinArc<T, F1>> for FinArc<T, F>`, method `partial_cmp`
(src/src/lib.rs line 209): `(**self).partial_cmp(&**other)`.  The value
type's own partial comparison is passed in as `pc` (for a Rust
`PartialOrd` it may return `None`). -/
def pcmp {T F F1 : Type} (pc : T → T → Option Ordering)
    (a : FinArcV T F) (b : FinArcV T F1) : Option Ordering :=
  pc a.deref b.deref

/-- Method `lt` of the same impl (src/src/lib.rs line 226):
`*(*self) < *(*other)`, the value type's strict order passed in as `ltT`. -/
def lt {T F F1 : Type} (ltT : T → T → Bool)
    (a : FinArcV T F) (b : FinArcV T F1) : Bool :=
  ltT a.deref b.deref

/-- Method `le` of the same impl (src/src/lib.rs line 243). -/
def le {T F F1 : Type} (leT : T → T → Bool)
    (a : FinArcV T F) (b : FinArcV T F1) : Bool :=
  leT a.deref b.deref

/-- Method `gt` of the same impl (src/src/lib.rs line 260). -/
def gt {T F F1 : Type} (gtT : T → T → Bool)
    (a : FinArcV T F) (b : FinArcV T F1) : Bool :=
  gtT a.deref b.deref

/-- Method `ge` of the same impl (src/src/lib.rs line 277). -/
def ge {T F F1 : Type} (geT : T → T → Bool)
    (a : FinArcV T F) (b : FinArcV T F1) : Bool :=
  geT a.deref b.deref

/-- `Ord for FinArc`, method `cmp` (src/src/lib.rs line 299):
`(**self).cmp(&**other)`; both sides share the finalizer type. -/
def cmp {T F : Type} (cm : T → T → Ordering)
    (a : FinArcV T F) (b : FinArcV T F) : Ordering :=
  cm a.deref b.deref

/-- `Display`/`Debug for FinArc` (src/src/lib.rs lines 306-316): formatting
delegates to `&**self`, the dereferenced value, with the value type's own
formatter passed in as `fm`. -/
def fmt {T F : Type} (fm : T → String) (a : FinArcV T F) : String :=
  fm a.deref

end FinArcV

/-- The lineage invariant maintained by the crate's public API: every live
handle still holds its slot reference (`inner` is `Some`) and has a fresh
id below `nextId`; the `Arc`'s strong count equals the number of live
handles; while any handle is live the finalizer is still in the slot, has
never run, and no `try_unwrap` has succeeded; once no handle is live the
slot is empty and the lineage ended either with exactly one finalizer
invocation or with one successful `try_unwrap` and no invocation. -/
def LineageInv {T : Type} (s : St T) : Prop :=
  (∀ h ∈ s.live, h.inner = true ∧ h.id < s.nextId) ∧
  (s.live.map Handle.id).Nodup ∧
  s.strong = s.live.length ∧
  (s.live ≠ [] → s.pending = true ∧ s.runs = [] ∧ s.unwrapped = none) ∧
  (s.live = [] → s.pending = false ∧
    ((s.unwrapped = none ∧ s.runs.length = 1) ∨
     (s.runs = [] ∧ ∃ v, s.unwrapped = some v)))

theorem findHandle_some {T : Type} {s : St T} {i : Nat} {h : Handle T}
    (hf : findHandle s i = some h) : h ∈ s.live ∧ h.id = i := by
  refine ⟨List.mem_of_find?_eq_some hf, ?_⟩
  simpa using List.find?_some hf

theorem findHandle_isSome_of_mem {T : Type} {s : St T} {h : Handle T}
    (hm : h ∈ s.live) : (findHandle s h.id).isSome := by
  unfold findHandle
  rw [List.find?_isSome]
  exact ⟨h, hm, by simp⟩

theorem find?_id_of_nodup {T : Type} {l : List (Handle T)}
    (hnd : (l.map Handle.id).Nodup) {h : Handle T} (hm : h ∈ l) :
    l.find? (fun h' => h'.id == h.id) = some h := by
  induction l with
  | nil => cases hm
  | cons a t ih =>
    rw [List.map_cons, List.nodup_cons] at hnd
    rcases List.mem_cons.1 hm with rfl | hmt
    · exact List.find?_cons_of_pos t (by simp)
    · have hneq : (a.id == h.id) = false := by
        rw [beq_eq_false_iff_ne]
        intro hc
        apply hnd.1
        rw [hc]
        exact List.mem_map_of_mem Handle.id hmt
      simp only [List.find?_cons, hneq]
      exact ih hnd.2 hmt

theorem findHandle_of_mem {T : Type} {s : St T}
    (hnd : (s.live.map Handle.id).Nodup) {h : Handle T} (hm : h ∈ s.live) :
    findHandle s h.id = some h :=
  find?_id_of_nodup hnd hm

theorem find?_write_other {T : Type} (l : List (Handle T)) (i j : Nat) (w : T)
    (hne : j ≠ i) :
    (l.map fun h => if h.id == i then { h with value := w } else h).find?
        (fun h => h.id == j) =
      l.find? (fun h => h.id == j) := by
  induction l with
  | nil => rfl
  | cons a t ih =>
    by_cases hc : a.id = i
    · have haj : a.id ≠ j := by omega
      simp [List.find?_cons, hc, Ne.symm hne, haj, -List.find?_map]
      simpa using ih
    · by_cases haj : a.id = j
      · simp [List.find?_cons, hc, haj, hne, -List.find?_map]
      · simp [List.find?_cons, hc, haj, -List.find?_map]
        simpa using ih

theorem find?_write_self {T : Type} (l : List (Handle T)) (i : Nat) (w : T) :
    (l.map fun h => if h.id == i then { h with value := w } else h).find?
        (fun h => h.id == i) =
      (l.find? (fun h => h.id == i)).map (fun h => { h with value := w }) := by
  induction l with
  | nil => rfl
  | cons a t ih =>
    by_cases hc : a.id = i
    · simp [List.find?_cons, hc, -List.find?_map]
    · simp [List.find?_cons, hc, -List.find?_map]
      simpa using ih

theorem dropOp_eq {T : Type} {s : St T} {i : Nat} {h : Handle T}
    (hf : findHandle s i = some h) :
    FinArc.dropOp s i =
      if h.inner then
        if s.strong == 1 then
          some { s with
            live := s.live.eraseP (fun h' => h'.id == i)
            strong := 0
            pending := false
            runs := s.runs ++ [h.value] }
        else
          some { s with
            live := s.live.eraseP (fun h' => h'.id == i)
            strong := s.strong - 1 }
      else none := by
  unfold FinArc.dropOp
  rw [hf]

theorem tryUnwrapOp_eq {T : Type} {s : St T} {i : Nat} {h : Handle T}
    (hf : findHandle s i = some h) :
    FinArc.tryUnwrapOp s i =
      if h.inner then
        if s.strong == 1 then
          some (.ok h.value
            { s with
              live := s.live.eraseP (fun h' => h'.id == i)
              strong := 0
              pending := false
              unwrapped := some h.value })
        else
          some (.err s)
      else none := by
  unfold FinArc.tryUnwrapOp
  rw [hf]

/-- Every state reachable through the public API satisfies the lineage
invariant. -/
theorem reachable_inv {T : Type} {s : St T} (hr : Reachable s) : LineageInv s := by
  induction hr with
  | init v =>
    refine ⟨?_, by simp [FinArc.new], rfl, fun _ => ⟨rfl, rfl, rfl⟩, fun hc => ?_⟩
    · intro h hm
      simp only [FinArc.new, List.mem_singleton] at hm
      subst hm
      exact ⟨rfl, Nat.zero_lt_one⟩
    · simp [FinArc.new] at hc
  | clone hr' heq ih =>
    rename_i s s' i
    obtain ⟨hinv1, hnd, hinv2, hinv3, _⟩ := ih
    unfold FinArc.cloneOp at heq
    cases hfind : findHandle s i with
    | none => rw [hfind] at heq; exact absurd heq (by simp)
    | some h =>
      rw [hfind] at heq
      obtain ⟨hm, _⟩ := findHandle_some hfind
      obtain ⟨hin, hid⟩ := hinv1 h hm
      cases heq
      have hne : s.live ≠ [] := List.ne_nil_of_mem hm
      obtain ⟨hp, hruns, hu⟩ := hinv3 hne
      refine ⟨?_, ?_, ?_, fun _ => ⟨hp, hruns, hu⟩, fun hc => ?_⟩
      · intro h' hm'
        rcases List.mem_append.1 hm' with hold | hnew
        · obtain ⟨hi', hlt'⟩ := hinv1 h' hold
          exact ⟨hi', Nat.lt_succ_of_lt hlt'⟩
        · simp only [List.mem_singleton] at hnew
          subst hnew
          exact ⟨hin, Nat.lt_succ_self _⟩
      · rw [List.map_append, List.nodup_append]
        refine ⟨hnd, by simp, ?_⟩
        intro x hx hx2
        obtain ⟨h₀, hm₀, hx0⟩ := List.mem_map.1 hx
        subst hx0
        simp only [List.map_cons, List.map_nil, List.mem_cons,
          List.not_mem_nil, or_false] at hx2
        exact absurd hx2 (Nat.ne_of_lt (hinv1 h₀ hm₀).2)
      · simp [hin, hinv2, List.length_append]
      · simp at hc
  | write hr' heq ih =>
    rename_i s s' i w
    obtain ⟨hinv1, hnd, hinv2, hinv3, _⟩ := ih
    unfold FinArc.writeOp at heq
    cases hfind : findHandle s i with
    | none => rw [hfind] at heq; exact absurd heq (by simp)
    | some h =>
      rw [hfind] at heq
      obtain ⟨hm, _⟩ := findHandle_some hfind
      cases heq
      have hne : s.live ≠ [] := List.ne_nil_of_mem hm
      have hids : (s.live.map
          (fun h' => if h'.id == i then { h' with value := w } else h')).map Handle.id =
          s.live.map Handle.id := by
        rw [List.map_map]
        apply List.map_congr_left
        intro a _
        by_cases hc : (a.id == i) = true
        · rw [Function.comp_apply, if_pos hc]
        · rw [Function.comp_apply, if_neg hc]
      refine ⟨?_, by rw [hids]; exact hnd, by simpa using hinv2,
        fun _ => hinv3 hne, fun hc => ?_⟩
      · intro h' hm'
        obtain ⟨h₀, hm₀, hf₀⟩ := List.mem_map.1 hm'
        obtain ⟨hi₀, hlt₀⟩ := hinv1 h₀ hm₀
        by_cases hcase : (h₀.id == i) = true
        · rw [if_pos hcase] at hf₀
          subst hf₀
          exact ⟨hi₀, hlt₀⟩
        · rw [if_neg hcase] at hf₀
          subst hf₀
          exact ⟨hi₀, hlt₀⟩
      · rw [List.map_eq_nil_iff] at hc
        exact absurd hc hne
  | drop hr' heq ih =>
    rename_i s s' i
    obtain ⟨hinv1, hnd, hinv2, hinv3, _⟩ := ih
    cases hfind : findHandle s i with
    | none =>
      unfold FinArc.dropOp at heq
      rw [hfind] at heq
      exact absurd heq (by simp)
    | some h =>
      obtain ⟨hm, hid⟩ := findHandle_some hfind
      obtain ⟨hin, _⟩ := hinv1 h hm
      have hne : s.live ≠ [] := List.ne_nil_of_mem hm
      obtain ⟨hp, hruns, hu⟩ := hinv3 hne
      rw [dropOp_eq hfind, if_pos hin] at heq
      have hph : (fun h' : Handle T => h'.id == i) h = true := by simp [hid]
      by_cases hstrong : s.strong = 1
      · rw [if_pos (show (s.strong == 1) = true by simpa using hstrong)] at heq
        cases heq
        have hlen : s.live.length = 1 := by omega
        obtain ⟨a, ha⟩ := List.length_eq_one.1 hlen
        have hha : h = a := by rw [ha] at hm; simpa using hm
        subst hha
        have herase : s.live.eraseP (fun h' => h'.id == i) = [] := by
          rw [ha]
          simp [hid]
        refine ⟨?_, by simp [herase], by simp [herase],
          fun hcn => absurd herase hcn, fun _ => ?_⟩
        · intro h' hm'
          rw [herase] at hm'
          exact absurd hm' (List.not_mem_nil h')
        · exact ⟨rfl, Or.inl ⟨hu, by simp [hruns]⟩⟩
      · rw [if_neg (show ¬ (s.strong == 1) = true by simpa using hstrong)] at heq
        cases heq
        have hlen1 : (s.live.eraseP (fun h' => h'.id == i)).length + 1 = s.live.length :=
          List.length_eraseP_add_one hm hph
        have hge2 : 2 ≤ s.live.length := by
          have hpos : 1 ≤ s.live.length := List.length_pos.2 hne
          omega
        have hne' : s.live.eraseP (fun h' => h'.id == i) ≠ [] := by
          have hpos' : 0 < (s.live.eraseP (fun h' => h'.id == i)).length := by omega
          exact List.ne_nil_of_length_pos hpos'
        refine ⟨?_,
          List.Nodup.sublist (List.Sublist.map Handle.id (List.eraseP_sublist s.live)) hnd,
          by simp only []; omega, fun _ => ⟨hp, hruns, hu⟩, fun hc => absurd hc hne'⟩
        intro h' hm'
        exact hinv1 h' ((List.eraseP_sublist s.live).mem hm')
  | unwrapOk hr' heq ih =>
    rename_i s s' i v
    obtain ⟨hinv1, hnd, hinv2, hinv3, _⟩ := ih
    cases hfind : findHandle s i with
    | none =>
      unfold FinArc.tryUnwrapOp at heq
      rw [hfind] at heq
      exact absurd heq (by simp)
    | some h =>
      obtain ⟨hm, hid⟩ := findHandle_some hfind
      obtain ⟨hin, _⟩ := hinv1 h hm
      have hne : s.live ≠ [] := List.ne_nil_of_mem hm
      obtain ⟨hp, hruns, hu⟩ := hinv3 hne
      rw [tryUnwrapOp_eq hfind, if_pos hin] at heq
      by_cases hstrong : s.strong = 1
      · rw [if_pos (show (s.strong == 1) = true by simpa using hstrong)] at heq
        rw [Option.some.injEq] at heq
        cases heq
        have hlen : s.live.length = 1 := by omega
        obtain ⟨a, ha⟩ := List.length_eq_one.1 hlen
        have hha : h = a := by rw [ha] at hm; simpa using hm
        subst hha
        have herase : s.live.eraseP (fun h' => h'.id == i) = [] := by
          rw [ha, List.eraseP_cons]
          simp [hid]
        refine ⟨?_, by simp [herase], by simp [herase],
          fun hcn => absurd herase hcn, fun _ => ?_⟩
        · intro h' hm'
          rw [herase] at hm'
          exact absurd hm' (List.not_mem_nil h')
        · exact ⟨rfl, Or.inr ⟨hruns, ⟨h.value, rfl⟩⟩⟩
      · rw [if_neg (show ¬ (s.strong == 1) = true by simpa using hstrong)] at heq
        exact absurd heq (by simp)
  | unwrapErr hr' heq ih =>
    rename_i s s' i
    cases hfind : findHandle s i with
    | none =>
      unfold FinArc.tryUnwrapOp at heq
      rw [hfind] at heq
      exact absurd heq (by simp)
    | some h =>
      obtain ⟨hm, _⟩ := findHandle_some hfind
      obtain ⟨hin, _⟩ := ih.1 h hm
      rw [tryUnwrapOp_eq hfind, if_pos hin] at heq
      by_cases hstrong : s.strong = 1
      · rw [if_pos (show (s.strong == 1) = true by simpa using hstrong)] at heq
        exact absurd heq (by simp)
      · rw [if_neg (show ¬ (s.strong == 1) = true by simpa using hstrong)] at heq
        have hss : s' = s := by
          have hinj := Option.some.inj heq
          cases hinj
          rfl
        rw [hss]
        exact ih

/-- Claim C1: a lineage is created by one `FinArc::new` call and grown by
clones; once every handle has been retired by `drop` — in any order, with
no successful `try_unwrap` — the finalizer has executed exactly once,
never zero times and never more than once. -/
theorem finalizer_runs_exactly_once {T : Type} {s : St T} (hr : Reachable s)
    (hempty : s.live = []) (hnone : s.unwrapped = none) :
    s.runs.length = 1 := by
  obtain ⟨_, _, _, _, hfin⟩ := reachable_inv hr
  rcases (hfin hempty).2 with ⟨_, hlen⟩ | ⟨_, v, hv⟩
  · exact hlen
  · rw [hnone] at hv
    exact absurd hv (by simp)

/-- Concrete run for C1: value 3, one clone, both handles dropped; the
finalizer ran exactly once (on the value 3). -/
theorem finalizer_runs_exactly_once_witness :
    ((⟨[], 0, false, [3], none, 2⟩ : St Nat)).runs.length = 1 := by
  have h0 : Reachable (FinArc.new (3 : Nat)) := Reachable.init 3
  have e1 : FinArc.cloneOp (FinArc.new (3 : Nat)) 0 =
      some ⟨[⟨0, 3, true⟩, ⟨1, 3, true⟩], 2, true, [], none, 2⟩ := rfl
  have h1 := Reachable.clone h0 e1
  have e2 : FinArc.dropOp
      (⟨[⟨0, 3, true⟩, ⟨1, 3, true⟩], 2, true, [], none, 2⟩ : St Nat) 0 =
      some ⟨[⟨1, 3, true⟩], 1, true, [], none, 2⟩ := rfl
  have h2 := Reachable.drop h1 e2
  have e3 : FinArc.dropOp (⟨[⟨1, 3, true⟩], 1, true, [], none, 2⟩ : St Nat) 1 =
      some ⟨[], 0, false, [3], none, 2⟩ := rfl
  have h3 := Reachable.drop h2 e3
  exact finalizer_runs_exactly_once h3 rfl rfl

/-- Claim C3: when the finalizer fires on the drop of the last live handle,
the value it receives is exactly the value currently held by that handle —
not the construction value and not another clone's value (`runs` picks up
`h.value`, the private copy of the handle being dropped). -/
theorem finalizer_sees_last_value {T : Type} {s : St T} (hr : Reachable s)
    {h : Handle T} (hl : s.live = [h]) :
    FinArc.dropOp s h.id = some
      { s with live := [], strong := 0, pending := false, runs := [h.value] } := by
  obtain ⟨hinv1, hnd, hinv2, hinv3, _⟩ := reachable_inv hr
  have hm : h ∈ s.live := by rw [hl]; exact List.mem_singleton_self h
  obtain ⟨hin, _⟩ := hinv1 h hm
  have hfind := findHandle_of_mem hnd hm
  have hne : s.live ≠ [] := List.ne_nil_of_mem hm
  obtain ⟨_, hruns, _⟩ := hinv3 hne
  have hstrong : s.strong = 1 := by rw [hinv2, hl]; rfl
  have herase : s.live.eraseP (fun h' => h'.id == h.id) = [] := by
    rw [hl]
    simp
  rw [dropOp_eq hfind, if_pos hin,
    if_pos (show (s.strong == 1) = true by simpa using hstrong)]
  rw [herase, hruns]
  rfl

/-- Concrete run for C3: construct with 10, clone, mutate the original
handle to 99, drop the clone; dropping the survivor passes 99 — its
current value, not the construction value 10 — to the finalizer. -/
theorem finalizer_sees_last_value_witness :
    FinArc.dropOp (⟨[⟨0, 99, true⟩], 1, true, [], none, 2⟩ : St Nat) 0 =
      some ⟨[], 0, false, [99], none, 2⟩ := by
  have h0 : Reachable (FinArc.new (10 : Nat)) := Reachable.init 10
  have e1 : FinArc.cloneOp (FinArc.new (10 : Nat)) 0 =
      some ⟨[⟨0, 10, true⟩, ⟨1, 10, true⟩], 2, true, [], none, 2⟩ := rfl
  have h1 := Reachable.clone h0 e1
  have e2 : FinArc.writeOp
      (⟨[⟨0, 10, true⟩, ⟨1, 10, true⟩], 2, true, [], none, 2⟩ : St Nat) 0 99 =
      some ⟨[⟨0, 99, true⟩, ⟨1, 10, true⟩], 2, true, [], none, 2⟩ := rfl
  have h2 := Reachable.write h1 e2
  have e3 : FinArc.dropOp
      (⟨[⟨0, 99, true⟩, ⟨1, 10, true⟩], 2, true, [], none, 2⟩ : St Nat) 1 =
      some ⟨[⟨0, 99, true⟩], 1, true, [], none, 2⟩ := rfl
  have h3 := Reachable.drop h2 e3
  exact @finalizer_sees_last_value Nat _ h3 ⟨0, 99, true⟩ rfl

/-- Claim C5: each handle's value is independent private storage — writing
through one handle's mutable dereference never changes the value observed
through any other handle. -/
theorem write_never_touches_other {T : Type} (s : St T) (i j : Nat) (w : T)
    (hne : j ≠ i) {s' : St T} (hw : FinArc.writeOp s i w = some s') :
    valueOf s' j = valueOf s j := by
  cases hfind : findHandle s i with
  | none =>
    unfold FinArc.writeOp at hw
    rw [hfind] at hw
    exact absurd hw (by simp)
  | some h =>
    unfold FinArc.writeOp at hw
    rw [hfind] at hw
    cases hw
    simp only [valueOf, findHandle]
    rw [find?_write_other s.live i j w hne]

/-- Concrete run for C5: two handles with values 1 and 2; writing 7 through
handle 0 leaves handle 1's observable value unchanged. -/
theorem write_never_touches_other_witness :
    valueOf (⟨[⟨0, 7, true⟩, ⟨1, 2, true⟩], 2, true, [], none, 2⟩ : St Nat) 1 =
      valueOf (⟨[⟨0, 1, true⟩, ⟨1, 2, true⟩], 2, true, [], none, 2⟩ : St Nat) 1 :=
  write_never_touches_other
    (⟨[⟨0, 1, true⟩, ⟨1, 2, true⟩], 2, true, [], none, 2⟩ : St Nat) 0 1 7
    (by decide) rfl

/-- Claim C2: `FinArc::try_unwrap` on a handle of a lineage with live count
1 returns `Ok` carrying the handle's current value; the finalizer is never
invoked (`runs` is and stays empty, the slot is discarded silently) and the
handle's destructor does not run afterwards (the handle disappears with no
`runs` entry).  With live count above 1 it returns `Err` carrying the
handle back with the lineage state completely unchanged — same value, same
lineage, live count not corrupted — and the finalizer still pending. -/
theorem tryUnwrap_ok_and_err {T : Type} {s : St T} (hr : Reachable s)
    {h : Handle T} (hm : h ∈ s.live) :
    (s.strong = 1 →
      FinArc.tryUnwrapOp s h.id = some (.ok h.value
        { s with live := [], strong := 0, pending := false,
                 unwrapped := some h.value }) ∧
      s.runs = []) ∧
    (1 < s.strong →
      FinArc.tryUnwrapOp s h.id = some (.err s) ∧ s.pending = true) := by
  obtain ⟨hinv1, hnd, hinv2, hinv3, _⟩ := reachable_inv hr
  obtain ⟨hin, _⟩ := hinv1 h hm
  have hfind := findHandle_of_mem hnd hm
  have hne : s.live ≠ [] := List.ne_nil_of_mem hm
  obtain ⟨hp, hruns, _⟩ := hinv3 hne
  constructor
  · intro h1
    have hlen : s.live.length = 1 := by omega
    obtain ⟨a, ha⟩ := List.length_eq_one.1 hlen
    have hha : h = a := by rw [ha] at hm; simpa using hm
    subst hha
    have herase : s.live.eraseP (fun h' => h'.id == h.id) = [] := by
      rw [ha]
      simp
    rw [tryUnwrapOp_eq hfind, if_pos hin,
      if_pos (show (s.strong == 1) = true by simpa using h1)]
    refine ⟨?_, hruns⟩
    rw [herase]
  · intro h2
    rw [tryUnwrapOp_eq hfind, if_pos hin,
      if_neg (show ¬ (s.strong == 1) = true by simp; omega)]
    exact ⟨rfl, hp⟩

/-- Concrete run for C2, success side: `try_unwrap` on the sole handle of a
fresh lineage with value 4 returns Ok 4, removes the handle without a
finalizer invocation, and the run log stays empty. -/
theorem tryUnwrap_ok_and_err_witness :
    FinArc.tryUnwrapOp (FinArc.new (4 : Nat)) 0 =
      some (.ok 4 ⟨[], 0, false, [], some 4, 1⟩) := by
  have h0 : Reachable (FinArc.new (4 : Nat)) := Reachable.init 4
  have hm : (⟨0, 4, true⟩ : Handle Nat) ∈ (FinArc.new (4 : Nat)).live := by
    simp [FinArc.new]
  exact ((tryUnwrap_ok_and_err h0 hm).1 rfl).1

/-- Claim C7: in every reachable state any live handle still holds its slot
reference (`inner` is `Some`), so the `expect("Finalizer is gone")` in
`drop` and `try_unwrap` always succeeds: both operations on a live handle
take a non-panicking branch (the panic branch is modelled by `none`). -/
theorem finalizer_gone_unreachable {T : Type} {s : St T} (hr : Reachable s)
    {h : Handle T} (hm : h ∈ s.live) :
    h.inner = true ∧ FinArc.dropOp s h.id ≠ none ∧
      FinArc.tryUnwrapOp s h.id ≠ none := by
  obtain ⟨hinv1, hnd, _, _, _⟩ := reachable_inv hr
  obtain ⟨hin, _⟩ := hinv1 h hm
  have hfind := findHandle_of_mem hnd hm
  refine ⟨hin, ?_, ?_⟩
  · rw [dropOp_eq hfind, if_pos hin]
    by_cases hstrong : (s.strong == 1) = true
    · rw [if_pos hstrong]
      simp
    · rw [if_neg hstrong]
      simp
  · rw [tryUnwrapOp_eq hfind, if_pos hin]
    by_cases hstrong : (s.strong == 1) = true
    · rw [if_pos hstrong]
      simp
    · rw [if_neg hstrong]
      simp

/-- Concrete check for C7: on a fresh two-handle lineage, dropping either
handle never reaches the "Finalizer is gone" panic branch. -/
theorem finalizer_gone_unreachable_witness :
    FinArc.dropOp
      (⟨[⟨0, 3, true⟩, ⟨1, 3, true⟩], 2, true, [], none, 2⟩ : St Nat) 1 ≠
      none := by
  have h0 : Reachable (FinArc.new (3 : Nat)) := Reachable.init 3
  have e1 : FinArc.cloneOp (FinArc.new (3 : Nat)) 0 =
      some ⟨[⟨0, 3, true⟩, ⟨1, 3, true⟩], 2, true, [], none, 2⟩ := rfl
  have h1 := Reachable.clone h0 e1
  have hm : (⟨1, 3, true⟩ : Handle Nat) ∈
      (⟨[⟨0, 3, true⟩, ⟨1, 3, true⟩], 2, true, [], none, 2⟩ : St Nat).live := by
    simp
  exact (finalizer_gone_unreachable h1 hm).2.1

/-- Claim C6: the shared slot's strong count always equals the number of
live handles of the lineage; `new` establishes a lineage with count 1;
every `clone` increments the count by exactly one and copies the source
handle's value into the fresh handle; every `drop` decrements it by exactly
one; a failed `try_unwrap` leaves the state untouched (so a later retry or
drop still decrements by exactly one); and the finalizer cannot fire while
more than one handle is live. -/
theorem strong_count_tracks_handles {T : Type} {s : St T} (hr : Reachable s) :
    s.strong = s.live.length ∧
    (∀ v : T, (FinArc.new v).strong = 1 ∧ (FinArc.new v).live.length = 1) ∧
    (∀ i s', FinArc.cloneOp s i = some s' →
      s'.strong = s.strong + 1 ∧ s'.live.length = s.live.length + 1 ∧
      valueOf s' s.nextId = valueOf s i) ∧
    (∀ i s', FinArc.dropOp s i = some s' →
      s'.strong = s.strong - 1 ∧ s'.live.length = s.live.length - 1) ∧
    (∀ i s', FinArc.tryUnwrapOp s i = some (.err s') → s' = s) ∧
    (∀ i s', 2 ≤ s.live.length → FinArc.dropOp s i = some s' →
      s'.runs = s.runs ∧ s'.pending = true) := by
  obtain ⟨hinv1, hnd, hinv2, hinv3, _⟩ := reachable_inv hr
  refine ⟨hinv2, fun v => ⟨rfl, rfl⟩, ?_, ?_, ?_, ?_⟩
  · intro i s' heq
    cases hfind : findHandle s i with
    | none =>
      unfold FinArc.cloneOp at heq
      rw [hfind] at heq
      exact absurd heq (by simp)
    | some h =>
      unfold FinArc.cloneOp at heq
      rw [hfind] at heq
      cases heq
      obtain ⟨hm, hid⟩ := findHandle_some hfind
      obtain ⟨hin, hfresh⟩ := hinv1 h hm
      refine ⟨by simp [hin], by simp, ?_⟩
      show ((s.live ++ [(⟨s.nextId, h.value, h.inner⟩ : Handle T)]).find?
          (fun h' => h'.id == s.nextId)).map Handle.value =
        (s.live.find? (fun h' => h'.id == i)).map Handle.value
      have hnone : s.live.find? (fun h' => h'.id == s.nextId) = none := by
        rw [List.find?_eq_none]
        intro x hx
        simp only [beq_iff_eq]
        exact Nat.ne_of_lt (hinv1 x hx).2
      rw [List.find?_append, hnone]
      have hfind' : s.live.find? (fun h' => h'.id == i) = some h := hfind
      rw [hfind']
      simp
  · intro i s' heq
    cases hfind : findHandle s i with
    | none =>
      unfold FinArc.dropOp at heq
      rw [hfind] at heq
      exact absurd heq (by simp)
    | some h =>
      obtain ⟨hm, hid⟩ := findHandle_some hfind
      obtain ⟨hin, _⟩ := hinv1 h hm
      rw [dropOp_eq hfind, if_pos hin] at heq
      have hph : (fun h' : Handle T => h'.id == i) h = true := by simp [hid]
      have hlen1 : (s.live.eraseP (fun h' => h'.id == i)).length + 1 = s.live.length :=
        List.length_eraseP_add_one hm hph
      by_cases hstrong : s.strong = 1
      · rw [if_pos (show (s.strong == 1) = true by simpa using hstrong)] at heq
        cases heq
        constructor
        · simp only []
          omega
        · simp only []
          omega
      · rw [if_neg (show ¬ (s.strong == 1) = true by simpa using hstrong)] at heq
        cases heq
        constructor
        · rfl
        · simp only []
          omega
  · intro i s' heq
    cases hfind : findHandle s i with
    | none =>
      unfold FinArc.tryUnwrapOp at heq
      rw [hfind] at heq
      exact absurd heq (by simp)
    | some h =>
      obtain ⟨hm, _⟩ := findHandle_some hfind
      obtain ⟨hin, _⟩ := hinv1 h hm
      rw [tryUnwrapOp_eq hfind, if_pos hin] at heq
      by_cases hstrong : s.strong = 1
      · rw [if_pos (show (s.strong == 1) = true by simpa using hstrong)] at heq
        exact absurd heq (by simp)
      · rw [if_neg (show ¬ (s.strong == 1) = true by simpa using hstrong)] at heq
        have hinj := Option.some.inj heq
        cases hinj
        rfl
  · intro i s' hlen2 heq
    cases hfind : findHandle s i with
    | none =>
      unfold FinArc.dropOp at heq
      rw [hfind] at heq
      exact absurd heq (by simp)
    | some h =>
      obtain ⟨hm, _⟩ := findHandle_some hfind
      obtain ⟨hin, _⟩ := hinv1 h hm
      have hne : s.live ≠ [] := List.ne_nil_of_mem hm
      obtain ⟨hp, _, _⟩ := hinv3 hne
      rw [dropOp_eq hfind, if_pos hin] at heq
      have hstrong : ¬ s.strong = 1 := by omega
      rw [if_neg (show ¬ (s.strong == 1) = true by simpa using hstrong)] at heq
      cases heq
      exact ⟨rfl, hp⟩

/-- Concrete check for C6: after one clone of a fresh lineage the strong
count is 2 and equals the number of live handles. -/
theorem strong_count_tracks_handles_witness :
    (⟨[⟨0, 3, true⟩, ⟨1, 3, true⟩], 2, true, [], none, 2⟩ : St Nat).strong =
      (⟨[⟨0, 3, true⟩, ⟨1, 3, true⟩], 2, true, [], none, 2⟩ : St Nat).live.length := by
  have h0 : Reachable (FinArc.new (3 : Nat)) := Reachable.init 3
  have e1 : FinArc.cloneOp (FinArc.new (3 : Nat)) 0 =
      some ⟨[⟨0, 3, true⟩, ⟨1, 3, true⟩], 2, true, [], none, 2⟩ := rfl
  have h1 := Reachable.clone h0 e1
  exact (strong_count_tracks_handles h1).1

/-- Claim C10: dereference is transparent access to the private copy:
dereferencing `FinArc::new(v, f)` yields exactly `v`; writing `w` through
the mutable dereference of any handle and reading back through dereference
yields `w`; and the write changes neither the finalizer slot nor the
lineage live count (reads are pure functions of the state and by
construction change nothing). -/
theorem deref_transparent {T : Type} (v : T) :
    valueOf (FinArc.new v) 0 = some v ∧
    (∀ (s : St T) (i : Nat) (w : T) (s' : St T),
      FinArc.writeOp s i w = some s' →
      valueOf s' i = some w ∧ s'.pending = s.pending ∧ s'.strong = s.strong ∧
      s'.runs = s.runs ∧ s'.unwrapped = s.unwrapped ∧ s'.nextId = s.nextId) := by
  constructor
  · rfl
  · intro s i w s' hw
    cases hfind : findHandle s i with
    | none =>
      unfold FinArc.writeOp at hw
      rw [hfind] at hw
      exact absurd hw (by simp)
    | some h =>
      unfold FinArc.writeOp at hw
      rw [hfind] at hw
      cases hw
      refine ⟨?_, rfl, rfl, rfl, rfl, rfl⟩
      simp only [valueOf, findHandle]
      rw [find?_write_self s.live i w]
      have hfind' : s.live.find? (fun h' => h'.id == i) = some h := hfind
      rw [hfind']
      rfl

/-- Concrete check for C10: `*FinArc::new(3, f)` is 3, and after writing 7
through the handle the read yields 7. -/
theorem deref_transparent_witness :
    valueOf (FinArc.new (3 : Nat)) 0 = some 3 ∧
    valueOf (⟨[⟨0, 7, true⟩], 1, true, [], none, 1⟩ : St Nat) 0 = some 7 := by
  have hth := deref_transparent (3 : Nat)
  refine ⟨hth.1, ?_⟩
  have e : FinArc.writeOp (FinArc.new (3 : Nat)) 0 7 =
      some ⟨[⟨0, 7, true⟩], 1, true, [], none, 1⟩ := rfl
  exact ((hth.2 (FinArc.new 3) 0 7 _ e)).1

/-- Claim C4: equality, ordering, and formatting of handles are computed
strictly over the wrapped value: two handles compare equal exactly when
their values are equal, regardless of lineage, live count, or finalizer;
the comparison is defined — and unaffected — even between handles whose
finalizer types `F` and `F1` differ, and replacing either finalizer slot
never changes any comparison or formatting result. -/
theorem comparisons_ignore_finalizer {T : Type} [DecidableEq T]
    {F F1 : Type} (a : FinArcV T F) (b : FinArcV T F1)
    (pc : T → T → Option Ordering) (ltT leT gtT geT : T → T → Bool)
    (cm : T → T → Ordering) (fm : T → String) :
    (FinArcV.eq a b = true ↔ a.data = b.data) ∧
    (FinArcV.ne a b = true ↔ a.data ≠ b.data) ∧
    FinArcV.pcmp pc a b = pc a.data b.data ∧
    FinArcV.lt ltT a b = ltT a.data b.data ∧
    FinArcV.le leT a b = leT a.data b.data ∧
    FinArcV.gt gtT a b = gtT a.data b.data ∧
    FinArcV.ge geT a b = geT a.data b.data ∧
    FinArcV.fmt fm a = fm a.data ∧
    (∀ (F2 F3 : Type) (f : Option F2) (g : Option F3),
      FinArcV.eq (⟨f, a.data⟩ : FinArcV T F2) (⟨g, b.data⟩ : FinArcV T F3) =
        FinArcV.eq a b ∧
      FinArcV.pcmp pc (⟨f, a.data⟩ : FinArcV T F2) (⟨g, b.data⟩ : FinArcV T F3) =
        FinArcV.pcmp pc a b) ∧
    (∀ c d : FinArcV T F, FinArcV.cmp cm c d = cm c.data d.data) := by
  refine ⟨?_, ?_, rfl, rfl, rfl, rfl, rfl, rfl,
    fun F2 F3 f g => ⟨rfl, rfl⟩, fun c d => rfl⟩
  · simp [FinArcV.eq, FinArcV.deref]
  · simp [FinArcV.ne, FinArcV.deref]

/-- Concrete check for C4: two handles with value 5 but finalizer slots of
unrelated types (`Unit` versus `Bool`) compare equal. -/
theorem comparisons_ignore_finalizer_witness :
    FinArcV.eq (⟨some (), 5⟩ : FinArcV Nat Unit)
      (⟨some true, 5⟩ : FinArcV Nat Bool) = true :=
  (comparisons_ignore_finalizer (⟨some (), 5⟩ : FinArcV Nat Unit)
    (⟨some true, 5⟩ : FinArcV Nat Bool)
    (fun x y => some (compare x y)) (fun x y => decide (x < y))
    (fun x y => decide (x ≤ y)) (fun x y => decide (y < x))
    (fun x y => decide (y ≤ x)) compare toString).1.mpr rfl

/-- Claim C9: over a value type whose clone yields an equal value (clone is
the identity in this embedding), the handle produced by `Clone for FinArc`
compares equal to its source immediately after cloning, even though the two
handles hold separate value copies. -/
theorem clone_compares_equal {T : Type} [DecidableEq T] {F : Type}
    (a : FinArcV T F) :
    FinArcV.eq (FinArcV.clone a) a = true := by
  simp [FinArcV.eq, FinArcV.clone, FinArcV.deref]

/-- Concrete check for C9: the clone of a handle holding 5 compares equal
to the original. -/
theorem clone_compares_equal_witness :
    FinArcV.eq (FinArcV.clone (⟨none, 5⟩ : FinArcV Nat Unit))
      (⟨none, 5⟩ : FinArcV Nat Unit) = true :=
  clone_compares_equal (⟨none, 5⟩ : FinArcV Nat Unit)
